import Mathlib

/-!
# Verification of the cortex knowledge-graph engine

Shallow embedding of the core logic of the cortex note/knowledge-graph
server: the save-note auto-connect pipeline with its fallback cascade
(`src/tools/index.ts`), classifier-output validation
(`src/services/connections.ts`), the SQL traversal functions
(`src/supabase/migration.sql`: `match_notes`, `get_connections`,
`get_connections_deep`) and the interest-graph extractor
(`src/services/supabase.ts`).

Numeric values (similarities, strengths) are modelled as rationals; the
vector-distance operator of the store is kept abstract (a parameter),
since only threshold comparisons on its output matter to the properties
proved here.
-/

namespace Cortex

/-- The closed label enumeration (`VALID_LABELS` in
`src/services/connections.ts`, also the SQL check constraint). -/
def VALID_LABELS : List String :=
  ["supports", "contradicts", "follows_from", "expands_on", "related_to"]

/-- A stored note row (`notes` table). `embedding` is `none` for rows
whose embedding column is null. -/
structure Note where
  id : String
  title : Option String
  content : String
  tags : List String
  source : String
  embedding : Option (List ℚ)
  created_at : ℤ
deriving DecidableEq, Repr

/-- A stored connection row (`connections` table). -/
structure Edge where
  source : String
  target : String
  label : String
  strength : ℚ
  reasoning : Option String
  created_at : ℤ
deriving DecidableEq, Repr

/-- The persistent store's state: the two tables. -/
structure DB where
  notes : List Note
  edges : List Edge
deriving Repr

/-- Ids of all stored notes. -/
def DB.noteIds (db : DB) : List String := db.notes.map Note.id

/-- Schema invariant from the SQL foreign keys: both endpoints of every
edge reference an existing note. -/
def DB.WF (db : DB) : Prop :=
  ∀ e ∈ db.edges, e.source ∈ db.noteIds ∧ e.target ∈ db.noteIds

instance (db : DB) : Decidable db.WF := by
  unfold DB.WF; infer_instance

/-- No edge joins a note to itself.  The save pipeline never creates such
an edge (it filters the new note out of its own candidate list), so this
is an invariant of every database produced by the system. -/
def DB.NoSelfLoops (db : DB) : Prop :=
  ∀ e ∈ db.edges, e.source ≠ e.target

instance (db : DB) : Decidable db.NoSelfLoops := by
  unfold DB.NoSelfLoops; infer_instance

/-- A similarity-search result row (`SimilarNote` in `src/types.ts`). -/
structure SimilarNote where
  id : String
  title : Option String
  content : String
  tags : List String
  similarity : ℚ
deriving DecidableEq, Repr

/-- A validated relationship proposal (`ConnectionAssessment` in
`src/types.ts`). -/
structure Assessment where
  note_id : String
  label : String
  strength : ℚ
  reasoning : String
deriving DecidableEq, Repr

/-! ## Classifier output validation (`src/services/connections.ts`)

The classifier returns parsed JSON values; each array entry is an
untyped object whose fields may hold arbitrary JavaScript values.  We
model just enough of the JavaScript value universe for the `typeof`
tests the code performs. -/

/-- A JavaScript value as far as the validation filter can observe it:
a string, a number, or anything else. -/
inductive JsValue where
  | str : String → JsValue
  | num : ℚ → JsValue
  | other : JsValue
deriving DecidableEq, Repr

/-- `typeof v === "string"`. -/
def JsValue.isString : JsValue → Bool
  | .str _ => true
  | _ => false

/-- String payload (only meaningful after `isString`). -/
def JsValue.strVal : JsValue → String
  | .str s => s
  | _ => ""

/-- Numeric payload (only meaningful when the value is a number). -/
def JsValue.numVal : JsValue → ℚ
  | .num q => q
  | _ => 0

/-- One raw entry of the classifier's parsed JSON array, before
validation. -/
structure RawEntry where
  note_id : JsValue
  label : JsValue
  strength : JsValue
  reasoning : JsValue
deriving DecidableEq, Repr

/-- The validation filter of `assessConnections`: `note_id` and
`reasoning` must be strings, `strength` a number within `[0,1]`, and
`label` a string drawn from `VALID_LABELS`. -/
def entryValid (e : RawEntry) : Bool :=
  e.note_id.isString && e.reasoning.isString &&
    (match e.strength with
      | .num s => decide ((0 : ℚ) ≤ s) && decide (s ≤ 1)
      | _ => false) &&
    (match e.label with
      | .str l => decide (l ∈ VALID_LABELS)
      | _ => false)

/-- Coerce a raw entry that passed validation into a typed assessment
(in the source this is a TypeScript type-guard: the value itself is
reused unchanged). -/
def RawEntry.toAssessment (e : RawEntry) : Assessment :=
  ⟨e.note_id.strVal, e.label.strVal, e.strength.numVal, e.reasoning.strVal⟩

/-- The result of `assessConnections` on a successfully parsed array:
exactly the entries passing validation, in order. -/
def validAssessments (l : List RawEntry) : List Assessment :=
  (l.filter entryValid).map RawEntry.toAssessment

/-! ## The save-note auto-connect pipeline (`cortex_save_note`,
`src/tools/index.ts`)

The pipeline runs after the note row itself is durably saved.  Its
external inputs are the similarity-search result, the classifier
outcome (which can raise), and the success or failure of each
individual edge insert; all three are parameters of the model. -/

/-- `Math.max` on rationals (as an executable conditional, so that
concrete instances evaluate in the kernel). -/
def qmax (a b : ℚ) : ℚ := if a ≤ b then b else a

/-- `Math.min` on rationals. -/
def qmin (a b : ℚ) : ℚ := if a ≤ b then a else b

/-- `clamp01` from `cortex_save_note`:
`Math.max(0, Math.min(1, value))`. -/
def clamp01 (x : ℚ) : ℚ := qmax 0 (qmin 1 x)

/-- Justification string attached to fallback edges created when the
classifier raised an error. -/
def errorFallbackReason : String :=
  "Fallback edge created from embedding similarity when LLM assessment was unavailable."

/-- Justification string attached to fallback edges created when the
classifier succeeded but proposed nothing. -/
def emptyFallbackReason : String :=
  "Auto-connected from high embedding similarity (no explicit LLM relationship found)."

/-- Warning text produced when the classifier raised an error. -/
def assessFailWarning (msg : String) : String :=
  "Note saved. LLM connection assessment failed, using similarity fallback: " ++ msg

/-- Warning text appended when some edge inserts failed. -/
def insertFailWarning (n : ℕ) : String :=
  "Failed to persist " ++ toString n ++ " connection(s). Check server logs for details."

/-- Similarity-heuristic edge synthesis shared by both fallback tiers:
keep candidates at or above `thr`, cap the list at `cap`, and emit a
`related_to` edge per survivor with clamped similarity as strength. -/
def fallbackAssessments (cands : List SimilarNote) (thr : ℚ) (cap : ℕ)
    (reason : String) : List Assessment :=
  ((cands.filter (fun c => thr ≤ c.similarity)).take cap).map
    (fun c => ⟨c.id, "related_to", clamp01 c.similarity, reason⟩)

/-- Keep the assessments whose (0-based) insert attempt succeeded,
numbering attempts from `i`.  Mirrors the per-edge try/catch loop: a
failed insert is skipped, the loop continues. -/
def keepInserted (insertOk : ℕ → Bool) (i : ℕ) : List Assessment → List Assessment
  | [] => []
  | a :: rest =>
      if insertOk i then a :: keepInserted insertOk (i + 1) rest
      else keepInserted insertOk (i + 1) rest

/-- Outcome of the post-save enrichment stage. -/
structure SaveOutcome where
  /-- The relationship list after classification / fallback synthesis,
  before persistence (the `assessments` variable). -/
  assessments : List Assessment
  /-- The successfully persisted edges (`connectionsCreated`), as the
  assessments they came from. -/
  connections : List Assessment
  /-- `connectionInsertFailures`. -/
  insertFailures : ℕ
  /-- The `warning` field of the returned payload. -/
  warning : Option String
deriving Repr

/-- The auto-connect stage of `cortex_save_note`.

* `noteId` — the id of the freshly inserted note;
* `similar` — what `searchByEmbedding` returned;
* `cls` — the classifier outcome: `.error msg` when `assessConnections`
  raised, `.ok raw` with the parsed JSON array otherwise (validation of
  `raw` happens inside `assessConnections` and is applied here);
* `insertOk i` — whether the `i`-th `insertConnection` call succeeded.
-/
def saveConnect (noteId : String) (similar : List SimilarNote)
    (cls : Except String (List RawEntry)) (insertOk : ℕ → Bool) :
    SaveOutcome :=
  let candidates := similar.filter (fun c => c.id ≠ noteId)
  if candidates.isEmpty then
    ⟨[], [], 0, none⟩
  else
    let branch : Option String × List Assessment :=
      match cls with
      | .error msg =>
          (some (assessFailWarning msg),
            fallbackAssessments candidates (mkRat 2 5) 3 errorFallbackReason)
      | .ok raw => (none, validAssessments raw)
    let warning0 := branch.1
    let a0 := branch.2
    let assessments :=
      if a0.isEmpty then
        fallbackAssessments candidates (mkRat 1 2) 2 emptyFallbackReason
      else a0
    let created := keepInserted insertOk 0 assessments
    let failures := assessments.length - created.length
    let warning :=
      if failures > 0 then
        some ((match warning0 with
          | some w => w ++ " "
          | none => "") ++ insertFailWarning failures)
      else warning0
    ⟨assessments, created, failures, warning⟩

/-! ## Depth-1 traversal (`get_connections`, `src/supabase/migration.sql`)

The function unions two subqueries (outgoing and incoming edges of the
root meeting the strength threshold).  SQL `UNION` (as opposed to
`UNION ALL`) returns the *distinct* result rows; we model the result as
the concatenation of the two subqueries with duplicate rows removed.
Result rows are projected to the columns the queries select that the
properties here depend on (note id, depth, label, strength); the
remaining selected columns (title, content, tags) are functions of the
note id — `notes.id` is the primary key of the joined table — so the
projection identifies two rows exactly when the SQL rows coincide. -/

/-- A traversal result row (note id, depth, traversed edge's label and
strength). -/
structure GRow where
  id : String
  depth : ℕ
  label : String
  strength : ℚ
deriving DecidableEq, Repr

/-- The outgoing-edge subquery of `get_connections`: edges whose source
is the root, joined with the target note. -/
def outgoingRows (db : DB) (root : String) (minStrength : ℚ) : List GRow :=
  db.edges.filterMap (fun e =>
    if e.source = root ∧ minStrength ≤ e.strength ∧ e.target ∈ db.noteIds then
      some ⟨e.target, 1, e.label, e.strength⟩
    else none)

/-- The incoming-edge subquery of `get_connections`: edges whose target
is the root, joined with the source note. -/
def incomingRows (db : DB) (root : String) (minStrength : ℚ) : List GRow :=
  db.edges.filterMap (fun e =>
    if e.target = root ∧ minStrength ≤ e.strength ∧ e.source ∈ db.noteIds then
      some ⟨e.source, 1, e.label, e.strength⟩
    else none)

/-- `get_connections(root, minStrength)`: the SQL `UNION` of the two
subqueries (distinct rows). -/
def get_connections (db : DB) (root : String) (minStrength : ℚ) : List GRow :=
  (outgoingRows db root minStrength ++ incomingRows db root minStrength).dedup

/-! ## Semantic search (`match_notes` in `src/supabase/migration.sql`,
`searchByEmbedding` in `src/services/supabase.ts`)

The pgvector cosine-distance operator `<=>` is external; the model
takes it as a parameter `dist`.  `match_notes` keeps notes with a
non-null embedding whose similarity `1 - dist` strictly exceeds the
threshold and which contain all filter tags, orders by distance
ascending, and truncates to `match_count`. -/

/-- One result row of `match_notes`, paired with the distance used as
the sort key. -/
structure MatchRow where
  id : String
  title : Option String
  content : String
  tags : List String
  similarity : ℚ
deriving DecidableEq, Repr

/-- `match_notes(query_embedding, match_threshold, match_count,
filter_tags)`. -/
def match_notes (dist : List ℚ → List ℚ → ℚ) (db : DB)
    (query : List ℚ) (threshold : ℚ) (count : ℕ)
    (filterTags : Option (List String)) : List MatchRow :=
  let scored : List (ℚ × MatchRow) :=
    db.notes.filterMap (fun n =>
      match n.embedding with
      | none => none
      | some emb =>
          let d := dist emb query
          if threshold < 1 - d ∧
              (match filterTags with
                | none => true
                | some ts => ts.all (fun t => n.tags.contains t)) = true then
            some (d, ⟨n.id, n.title, n.content, n.tags, 1 - d⟩)
          else none)
  ((scored.insertionSort (fun a b => a.1 ≤ b.1)).map Prod.snd).take count

/-- `searchByEmbedding(embedding, limit, tags?)` on the canonical RPC
path: calls `match_notes` with the fixed threshold `0.3`, passing the
tag list only when it is present and non-empty. -/
def searchByEmbedding (dist : List ℚ → List ℚ → ℚ) (db : DB)
    (embedding : List ℚ) (limit : ℕ) (tags : Option (List String)) :
    List MatchRow :=
  match_notes dist db embedding (mkRat 3 10) limit
    (match tags with
      | some ts => if ts.isEmpty then none else some ts
      | none => none)

/-- The stale-RPC fallback path of `searchByEmbedding` (the in-process
re-scoring branch): scores every note with a non-null embedding by an
externally computed cosine similarity, keeps scores strictly above
`0.3`, applies the tag filter, sorts by similarity descending and takes
`limit`. -/
def searchFallback (cosine : List ℚ → List ℚ → ℚ) (db : DB)
    (embedding : List ℚ) (limit : ℕ) (tags : Option (List String)) :
    List MatchRow :=
  let tagFilter : Option (List String) :=
    match tags with
    | some ts => if ts.isEmpty then none else some ts
    | none => none
  let scored : List MatchRow :=
    db.notes.filterMap (fun n =>
      match n.embedding with
      | none => none
      | some emb =>
          some ⟨n.id, n.title, n.content, n.tags, cosine embedding emb⟩)
  (((scored.filter (fun (r : MatchRow) => (mkRat 3 10) < r.similarity)).filter
      (fun (r : MatchRow) =>
        match tagFilter with
        | none => true
        | some ts => ts.all (fun t => r.tags.contains t))).insertionSort
    (fun (a b : MatchRow) => b.similarity ≤ a.similarity)).take limit

/-! ## Interest-graph extractor (`getInterestGraph`,
`src/services/supabase.ts`) -/

/-- `getInterestGraph(limit, minStrength, tag?)`: up to `limit`
most-recent notes (optionally tag-filtered), then every stored edge
with both endpoints inside that node set and strength at or above the
threshold; short-circuits to a fully empty result when no node was
selected. -/
def getInterestGraph (db : DB) (limit : ℕ) (minStrength : ℚ)
    (tag : Option String) : List Note × List Edge :=
  let base : List Note :=
    match tag with
    | some t => db.notes.filter (fun (n : Note) => n.tags.contains t)
    | none => db.notes
  let nodes :=
    (base.insertionSort (fun (a b : Note) => b.created_at ≤ a.created_at)).take limit
  if nodes.isEmpty then ([], [])
  else
    let nodeIds := nodes.map Note.id
    (nodes,
      db.edges.filter (fun e =>
        e.source ∈ nodeIds ∧ e.target ∈ nodeIds ∧ minStrength ≤ e.strength))

/-! ## Deep traversal (`get_connections_deep`,
`src/supabase/migration.sql`)

The recursive CTE `graph` accumulates rows `(note, depth, label,
strength)`.  The base case is the two depth-1 subqueries of the direct
traversal; the recursive case extends any accumulated row `g` with
`g.depth < max_depth` through any edge of sufficient strength incident
to `g.id`, to the edge's other endpoint `n` (the `case` expression
picks the target when the source matches), provided `n` is a stored
note other than the root.  Because every produced row's depth is one
more than its generator's, the CTE's iterations are exactly the
depth levels, and the accumulated set is the union of the levels for
depths `1..max_depth`.  The final `SELECT DISTINCT ON (graph.id) ...
ORDER BY graph.id, graph.depth ASC` keeps one row per note id, of
minimal depth for that id (the choice among equal-depth rows is
implementation-defined; the model takes a minimizer of the list). -/

/-- The other endpoint of edge `e` as seen from node `x`: the SQL
`CASE WHEN c.source_id = g.id THEN c.target_id ELSE c.source_id END`. -/
def otherEnd (e : Edge) (x : String) : String :=
  if e.source = x then e.target else e.source

/-- The base case of the CTE: the two depth-1 subqueries (identical to
`get_connections` before its `UNION` dedup). -/
def deepBaseRows (db : DB) (root : String) (s : ℚ) : List GRow :=
  outgoingRows db root s ++ incomingRows db root s

/-- The recursive case of the CTE applied to one accumulated row. -/
def stepRow (db : DB) (root : String) (s : ℚ) (maxDepth : ℕ)
    (g : GRow) : List GRow :=
  if g.depth < maxDepth then
    db.edges.filterMap (fun e =>
      if (e.source = g.id ∨ e.target = g.id) ∧ s ≤ e.strength then
        if otherEnd e g.id ∈ db.noteIds ∧ otherEnd e g.id ≠ root then
          some ⟨otherEnd e g.id, g.depth + 1, e.label, e.strength⟩
        else none
      else none)
  else []

/-- Level `k` of the CTE's accumulation: the rows produced at iteration
`k` (all of depth `k + 1`). -/
def levelRows (db : DB) (root : String) (s : ℚ) (maxDepth : ℕ) :
    ℕ → List GRow
  | 0 => deepBaseRows db root s
  | k + 1 => (levelRows db root s maxDepth k).flatMap (stepRow db root s maxDepth)

/-- All rows accumulated by the CTE (with multiplicities; the SQL
`UNION` set semantics is recovered by deduplication at use sites). -/
def graphRows (db : DB) (root : String) (s : ℚ) (maxDepth : ℕ) : List GRow :=
  (List.range maxDepth).flatMap (levelRows db root s maxDepth)

/-- `get_connections_deep(root, max_depth, min_strength)`: one row per
distinct note id in the accumulated set, chosen of minimal depth for
that id. -/
def get_connections_deep (db : DB) (root : String) (maxDepth : ℕ)
    (s : ℚ) : List GRow :=
  let g := graphRows db root s maxDepth
  ((g.map GRow.id).dedup).filterMap
    (fun i => (g.filter (fun r => r.id = i)).argmin GRow.depth)

/-! ## Specification-side reachability

Independent of the SQL embedding above, a note `y` is reachable from
`x` at depth `n` when a chain of `n` stored edges, each of strength at
or above the threshold and traversed in either direction, links `x` to
`y`.  This is the notion of reachability the specification's traversal
properties quantify over. -/

/-- Edge `e` joins notes `b` and `c` (in either orientation). -/
def connects (e : Edge) (b c : String) : Prop :=
  (e.source = b ∧ e.target = c) ∨ (e.source = c ∧ e.target = b)

/-- A walk of length `n` from `x` to `y` along stored edges of strength
at or above `s`, each followed in either direction. -/
inductive Walk (db : DB) (s : ℚ) : String → String → ℕ → Prop
  | base (x : String) : Walk db s x x 0
  | step {x b c : String} {n : ℕ} {e : Edge} :
      Walk db s x b n → e ∈ db.edges → s ≤ e.strength →
      connects e b c → Walk db s x c (n + 1)

/-- A walk from the root that never returns to the root after leaving
it — the shape of chain the recursive CTE actually enumerates. -/
inductive AWalk (db : DB) (s : ℚ) (root : String) : String → ℕ → Prop
  | base : AWalk db s root root 0
  | step {b c : String} {n : ℕ} {e : Edge} :
      AWalk db s root b n → e ∈ db.edges → s ≤ e.strength →
      connects e b c → c ≠ root → AWalk db s root c (n + 1)

/-! ## Helper lemmas -/

theorem keepInserted_subset {insertOk : ℕ → Bool} :
    ∀ (l : List Assessment) (i : ℕ) (a : Assessment),
      a ∈ keepInserted insertOk i l → a ∈ l := by
  intro l
  induction l with
  | nil => intro i a h; simp [keepInserted] at h
  | cons b rest ih =>
      intro i a h
      simp only [keepInserted] at h
      by_cases hok : insertOk i
      · rw [if_pos hok] at h
        rcases List.mem_cons.mp h with h | h
        · exact h ▸ List.mem_cons_self b rest
        · exact List.mem_cons_of_mem b (ih (i + 1) a h)
      · rw [if_neg hok] at h
        exact List.mem_cons_of_mem b (ih (i + 1) a h)

theorem keepInserted_of_all_ok {insertOk : ℕ → Bool}
    (hok : ∀ n, insertOk n = true) :
    ∀ (l : List Assessment) (i : ℕ), keepInserted insertOk i l = l := by
  intro l
  induction l with
  | nil => intro i; rfl
  | cons b rest ih =>
      intro i
      simp only [keepInserted, hok i, if_pos]
      rw [ih]

theorem qmax_eq_max (a b : ℚ) : qmax a b = max a b := by
  rw [qmax, max_def]

theorem qmin_eq_min (a b : ℚ) : qmin a b = min a b := by
  rw [qmin, min_def]

theorem clamp01_eq (x : ℚ) : clamp01 x = max 0 (min 1 x) := by
  rw [clamp01, qmax_eq_max, qmin_eq_min]

theorem clamp01_nonneg (x : ℚ) : 0 ≤ clamp01 x := by
  rw [clamp01_eq]; exact le_max_left 0 _

theorem clamp01_le_one (x : ℚ) : clamp01 x ≤ 1 := by
  rw [clamp01_eq]
  rcases le_total 0 (min 1 x) with h | h
  · rw [max_eq_right h]; exact min_le_left 1 x
  · rw [max_eq_left h]; norm_num

theorem clamp01_of_mem_Icc {x : ℚ} (h0 : 0 ≤ x) (h1 : x ≤ 1) :
    clamp01 x = x := by
  rw [clamp01_eq, min_eq_right h1, max_eq_right h0]

theorem mem_fallbackAssessments {cands : List SimilarNote} {thr : ℚ}
    {cap : ℕ} {reason : String} {a : Assessment}
    (h : a ∈ fallbackAssessments cands thr cap reason) :
    ∃ c ∈ cands, thr ≤ c.similarity ∧ a.note_id = c.id ∧
      a.label = "related_to" ∧ a.strength = clamp01 c.similarity ∧
      a.reasoning = reason := by
  unfold fallbackAssessments at h
  rcases List.mem_map.mp h with ⟨c, hc, rfl⟩
  have hc' := List.mem_of_mem_take hc
  have := List.mem_filter.mp hc'
  exact ⟨c, this.1, by simpa using this.2, rfl, rfl, rfl, rfl⟩

theorem fallbackAssessments_length (cands : List SimilarNote) (thr : ℚ)
    (cap : ℕ) (reason : String) :
    (fallbackAssessments cands thr cap reason).length ≤ cap := by
  unfold fallbackAssessments
  rw [List.length_map]
  exact List.length_take_le cap _

theorem mem_validAssessments {l : List RawEntry} {a : Assessment}
    (h : a ∈ validAssessments l) :
    ∃ e ∈ l, entryValid e = true ∧ a = e.toAssessment := by
  unfold validAssessments at h
  rcases List.mem_map.mp h with ⟨e, he, rfl⟩
  have := List.mem_filter.mp he
  exact ⟨e, this.1, this.2, rfl⟩

theorem entryValid_strength {e : RawEntry} (h : entryValid e = true) :
    ∃ q : ℚ, e.strength = .num q ∧ 0 ≤ q ∧ q ≤ 1 := by
  unfold entryValid at h
  rcases hs : e.strength with s | q | _ <;> rw [hs] at h <;>
    simp only [Bool.and_eq_true, decide_eq_true_eq] at h
  · exact absurd h (by simp)
  · exact ⟨q, rfl, h.1.2.1, h.1.2.2⟩
  · exact absurd h (by simp)

theorem validAssessments_strength {l : List RawEntry} {a : Assessment}
    (h : a ∈ validAssessments l) : 0 ≤ a.strength ∧ a.strength ≤ 1 := by
  rcases mem_validAssessments h with ⟨e, _, hv, rfl⟩
  rcases entryValid_strength hv with ⟨q, hq, h0, h1⟩
  unfold RawEntry.toAssessment
  rw [hq]
  exact ⟨h0, h1⟩

/-- The stricter (0.5-threshold) fallback produces nothing when the
looser (0.4-threshold) fallback already produced nothing. -/
theorem fallback_strict_empty_of_loose_empty {cands : List SimilarNote}
    {r1 : String} (r2 : String)
    (h : fallbackAssessments cands (mkRat 2 5) 3 r1 = []) :
    fallbackAssessments cands (mkRat 1 2) 2 r2 = [] := by
  unfold fallbackAssessments at h ⊢
  rw [List.map_eq_nil_iff] at h ⊢
  rw [List.take_eq_nil_iff] at h ⊢
  rcases h with h | h
  · exact absurd h (by norm_num)
  · right
    rw [List.filter_eq_nil_iff] at h ⊢
    intro c hc hdec
    have h12 : (mkRat 1 2) ≤ c.similarity := of_decide_eq_true hdec
    have h25 : (mkRat 2 5) ≤ mkRat 1 2 := by decide
    exact h c hc (decide_eq_true (le_trans h25 h12))

/-- In the classifier-error branch with a non-empty candidate list, the
synthesized assessment list is exactly the loose (0.4-threshold,
cap 3) fallback — also when that fallback is itself empty, since the
stricter second-tier fallback then adds nothing. -/
theorem saveConnect_error_assessments (noteId : String)
    (similar : List SimilarNote) (msg : String) (insertOk : ℕ → Bool)
    (hne : (similar.filter (fun c => c.id ≠ noteId)).isEmpty = false) :
    (saveConnect noteId similar (Except.error msg) insertOk).assessments =
      fallbackAssessments (similar.filter (fun c => c.id ≠ noteId))
        (mkRat 2 5) 3 errorFallbackReason := by
  simp only [saveConnect, hne, Bool.false_eq_true, if_false]
  by_cases hemp :
      (fallbackAssessments (similar.filter (fun c => c.id ≠ noteId))
        (mkRat 2 5) 3 errorFallbackReason).isEmpty
  · have h1 : fallbackAssessments (similar.filter (fun c => c.id ≠ noteId))
        (mkRat 2 5) 3 errorFallbackReason = [] := List.isEmpty_iff.mp hemp
    have h2 := fallback_strict_empty_of_loose_empty emptyFallbackReason h1
    simp only [hemp, if_true, h1, h2]
    simp
  · simp only [Bool.not_eq_true] at hemp
    simp only [hemp, Bool.false_eq_true, if_false]

/-- In the classifier-error branch with a non-empty candidate list, the
returned warning is the classifier-failure message, possibly extended
with the persistence-failure summary. -/
theorem saveConnect_error_warning (noteId : String)
    (similar : List SimilarNote) (msg : String) (insertOk : ℕ → Bool)
    (hne : (similar.filter (fun c => c.id ≠ noteId)).isEmpty = false) :
    ∃ tail : String,
      (saveConnect noteId similar (Except.error msg) insertOk).warning =
        some (assessFailWarning msg ++ tail) := by
  simp only [saveConnect, hne, Bool.false_eq_true, if_false]
  split
  · split
    · exact ⟨_, by rw [String.append_assoc]⟩
    · exact ⟨"", by rw [String.append_empty]⟩
  · split
    · exact ⟨_, by rw [String.append_assoc]⟩
    · exact ⟨"", by rw [String.append_empty]⟩

/-- The persisted connections are always the survivors of the per-edge
insert loop over the synthesized assessment list. -/
theorem saveConnect_connections (noteId : String)
    (similar : List SimilarNote) (cls : Except String (List RawEntry))
    (insertOk : ℕ → Bool) :
    (saveConnect noteId similar cls insertOk).connections =
      keepInserted insertOk 0
        (saveConnect noteId similar cls insertOk).assessments := by
  by_cases hne : (similar.filter (fun c => c.id ≠ noteId)).isEmpty
  · simp only [saveConnect, hne, if_true]; rfl
  · simp only [Bool.not_eq_true] at hne
    simp only [saveConnect, hne, Bool.false_eq_true, if_false]

/-- Every synthesized assessment is validated classifier output or a
clamped similarity-fallback edge; in all three branches its strength
lies in `[0,1]`. -/
theorem saveConnect_assessments_strength (noteId : String)
    (similar : List SimilarNote) (cls : Except String (List RawEntry))
    (insertOk : ℕ → Bool) (a : Assessment)
    (ha : a ∈ (saveConnect noteId similar cls insertOk).assessments) :
    0 ≤ a.strength ∧ a.strength ≤ 1 := by
  by_cases hne : (similar.filter (fun c => c.id ≠ noteId)).isEmpty
  · simp only [saveConnect, hne, if_true] at ha
    cases ha
  · simp only [Bool.not_eq_true] at hne
    simp only [saveConnect, hne, Bool.false_eq_true, if_false] at ha
    have hfb : ∀ (thr : ℚ) (cap : ℕ) (reason : String),
        a ∈ fallbackAssessments (similar.filter (fun c => c.id ≠ noteId))
          thr cap reason → 0 ≤ a.strength ∧ a.strength ≤ 1 := by
      intro thr cap reason hmem
      rcases mem_fallbackAssessments hmem with ⟨c, _, _, _, _, hs, _⟩
      rw [hs]
      exact ⟨clamp01_nonneg _, clamp01_le_one _⟩
    rcases cls with msg | raw
    · simp only at ha
      split at ha
      · exact hfb _ _ _ ha
      · exact hfb _ _ _ ha
    · simp only at ha
      split at ha
      · exact hfb _ _ _ ha
      · exact validAssessments_strength ha

/-! ## Spec-side predicates and claim theorems for the save pipeline -/

/-- Spec-side reading of a trustworthy classifier entry: `note_id` and
`reasoning` are strings, `strength` is a number in `[0,1]`, and `label`
is a string of the closed enumeration. -/
def SpecValidEntry (e : RawEntry) : Prop :=
  (∃ s, e.note_id = JsValue.str s) ∧
  (∃ s, e.reasoning = JsValue.str s) ∧
  (∃ q, e.strength = JsValue.num q ∧ 0 ≤ q ∧ q ≤ 1) ∧
  (∃ l, e.label = JsValue.str l ∧ l ∈ VALID_LABELS)

theorem entryValid_iff (e : RawEntry) :
    entryValid e = true ↔ SpecValidEntry e := by
  obtain ⟨ni, la, st, re⟩ := e
  unfold entryValid SpecValidEntry
  rcases ni with s1 | q1 | _ <;> rcases la with s2 | q2 | _ <;>
    rcases st with s3 | q3 | _ <;> rcases re with s4 | q4 | _ <;>
    simp [JsValue.isString]

instance : DecidablePred SpecValidEntry := fun e =>
  decidable_of_iff (entryValid e = true) (entryValid_iff e)

/-- C9: every raw classifier entry whose label is outside the closed
enumeration, or whose strength lies outside `[0,1]`, or whose `note_id`
or `reasoning` is not a string, is dropped silently; the classification
operation returns exactly the entries passing this validation, in
order. -/
theorem classifier_validation_C9 (l : List RawEntry) :
    validAssessments l = l.filterMap
      (fun e => if SpecValidEntry e then some e.toAssessment else none) := by
  unfold validAssessments
  induction l with
  | nil => rfl
  | cons e t ih =>
      rw [List.filter_cons, List.filterMap_cons]
      by_cases h : entryValid e = true
      · rw [if_pos h, if_pos ((entryValid_iff e).mp h), List.map_cons, ih]
      · rw [if_neg (by simpa using h),
          if_neg (fun hs => h ((entryValid_iff e).mpr hs))]
        exact ih

/-- C1: when candidate retrieval leaves at least one candidate and the
classification step raises an error, the save operation synthesizes its
edges exactly from the candidates of similarity at least 0.4, keeps at
most 3 of them (the strongest-first prefix), labels each `related_to`
with strength `clamp(similarity, 0, 1)`, and returns a non-null warning
beginning with the classifier-failure description. -/
theorem save_classifier_error_C1 (noteId : String)
    (similar : List SimilarNote) (msg : String) (insertOk : ℕ → Bool)
    (hne : similar.filter (fun c => c.id ≠ noteId) ≠ []) :
    (saveConnect noteId similar (Except.error msg) insertOk).assessments =
      fallbackAssessments (similar.filter (fun c => c.id ≠ noteId)) (mkRat 2 5) 3
        errorFallbackReason ∧
    (saveConnect noteId similar (Except.error msg) insertOk).assessments.length
      ≤ 3 ∧
    (∀ a ∈ (saveConnect noteId similar (Except.error msg) insertOk).assessments,
      a.label = "related_to" ∧
      ∃ c ∈ similar.filter (fun c => c.id ≠ noteId),
        (mkRat 2 5) ≤ c.similarity ∧ a.note_id = c.id ∧
          a.strength = clamp01 c.similarity) ∧
    (saveConnect noteId similar (Except.error msg) insertOk).warning ≠ none ∧
    (∃ tail,
      (saveConnect noteId similar (Except.error msg) insertOk).warning =
        some (assessFailWarning msg ++ tail)) := by
  have hne' : (similar.filter (fun c => c.id ≠ noteId)).isEmpty = false := by
    cases h : (similar.filter (fun c => c.id ≠ noteId)).isEmpty
    · rfl
    · exact absurd (List.isEmpty_iff.mp h) hne
  have hassess := saveConnect_error_assessments noteId similar msg insertOk hne'
  have hwarn := saveConnect_error_warning noteId similar msg insertOk hne'
  refine ⟨hassess, ?_, ?_, ?_, hwarn⟩
  · rw [hassess]; exact fallbackAssessments_length _ _ _ _
  · intro a ha
    rw [hassess] at ha
    rcases mem_fallbackAssessments ha with ⟨c, hc, hthr, hid, hlab, hs, _⟩
    exact ⟨hlab, c, hc, hthr, hid, hs⟩
  · rcases hwarn with ⟨tail, htail⟩
    rw [htail]
    exact Option.some_ne_none _

/-- Concrete witness for C1: one candidate of similarity 0.9, classifier
raising; the fallback synthesizes one clamped `related_to` edge and the
warning is present. -/
theorem save_classifier_error_C1_witness :
    ([(⟨"A", none, "alpha", [], mkRat 9 10⟩ : SimilarNote)].filter
        (fun c => c.id ≠ "B") ≠ []) ∧
    (saveConnect "B" [⟨"A", none, "alpha", [], mkRat 9 10⟩]
        (Except.error "boom") (fun _ => true)).assessments.length ≤ 3 :=
  ⟨by decide,
    (save_classifier_error_C1 "B" [⟨"A", none, "alpha", [], mkRat 9 10⟩]
      "boom" (fun _ => true) (by decide)).2.1⟩

/-- C3: when candidate retrieval leaves at least one candidate, the
classification step succeeds with an empty validated set, and every
edge insert succeeds, the save operation synthesizes its edges exactly
from the candidates of similarity at least 0.5, keeps at most 2, labels
each `related_to` with clamped strength, and returns a null warning. -/
theorem save_empty_classification_C3 (noteId : String)
    (similar : List SimilarNote) (raw : List RawEntry) (insertOk : ℕ → Bool)
    (hne : similar.filter (fun c => c.id ≠ noteId) ≠ [])
    (hempty : validAssessments raw = [])
    (hok : ∀ n, insertOk n = true) :
    (saveConnect noteId similar (Except.ok raw) insertOk).assessments =
      fallbackAssessments (similar.filter (fun c => c.id ≠ noteId)) (mkRat 1 2) 2
        emptyFallbackReason ∧
    (saveConnect noteId similar (Except.ok raw) insertOk).assessments.length
      ≤ 2 ∧
    (∀ a ∈ (saveConnect noteId similar (Except.ok raw) insertOk).assessments,
      a.label = "related_to" ∧
      ∃ c ∈ similar.filter (fun c => c.id ≠ noteId),
        (mkRat 1 2) ≤ c.similarity ∧ a.note_id = c.id ∧
          a.strength = clamp01 c.similarity) ∧
    (saveConnect noteId similar (Except.ok raw) insertOk).warning = none := by
  have hne' : (similar.filter (fun c => c.id ≠ noteId)).isEmpty = false := by
    cases h : (similar.filter (fun c => c.id ≠ noteId)).isEmpty
    · rfl
    · exact absurd (List.isEmpty_iff.mp h) hne
  have hassess :
      (saveConnect noteId similar (Except.ok raw) insertOk).assessments =
        fallbackAssessments (similar.filter (fun c => c.id ≠ noteId)) (mkRat 1 2) 2
          emptyFallbackReason := by
    simp only [saveConnect, hne', Bool.false_eq_true, if_false, hempty,
      List.isEmpty_nil, if_true]
  refine ⟨hassess, ?_, ?_, ?_⟩
  · rw [hassess]; exact fallbackAssessments_length _ _ _ _
  · intro a ha
    rw [hassess] at ha
    rcases mem_fallbackAssessments ha with ⟨c, hc, hthr, hid, hlab, hs, _⟩
    exact ⟨hlab, c, hc, hthr, hid, hs⟩
  · simp only [saveConnect, hne', Bool.false_eq_true, if_false, hempty,
      List.isEmpty_nil, if_true, keepInserted_of_all_ok hok, Nat.sub_self]
    simp

/-- Concrete witness for C3: one candidate of similarity 0.9, classifier
succeeding with an empty set, all inserts succeeding. -/
theorem save_empty_classification_C3_witness :
    ([(⟨"A", none, "alpha", [], mkRat 9 10⟩ : SimilarNote)].filter
        (fun c => c.id ≠ "B") ≠ []) ∧
    validAssessments [] = [] ∧
    (saveConnect "B" [⟨"A", none, "alpha", [], mkRat 9 10⟩]
        (Except.ok []) (fun _ => true)).warning = none :=
  ⟨by decide, rfl,
    (save_empty_classification_C3 "B" [⟨"A", none, "alpha", [], mkRat 9 10⟩]
      [] (fun _ => true) (by decide) rfl (fun _ => rfl)).2.2.2⟩

/-- C4: every edge the save operation persists — classifier-proposed or
synthesized by either similarity fallback, under any pattern of insert
failures — has strength within `[0,1]`. -/
theorem save_strength_bounds_C4 (noteId : String)
    (similar : List SimilarNote) (cls : Except String (List RawEntry))
    (insertOk : ℕ → Bool) :
    ∀ a ∈ (saveConnect noteId similar cls insertOk).connections,
      0 ≤ a.strength ∧ a.strength ≤ 1 := by
  intro a ha
  rw [saveConnect_connections] at ha
  exact saveConnect_assessments_strength noteId similar cls insertOk a
    (keepInserted_subset _ 0 a ha)

/-- Concrete witness for C4: the persisted fallback edge of strength
0.9 is within bounds. -/
theorem save_strength_bounds_C4_witness :
    ((⟨"A", "related_to", mkRat 9 10, errorFallbackReason⟩ : Assessment) ∈
      (saveConnect "B" [⟨"A", none, "alpha", [], mkRat 9 10⟩]
        (Except.error "boom") (fun _ => true)).connections) ∧
    (0 ≤ ((⟨"A", "related_to", mkRat 9 10, errorFallbackReason⟩ : Assessment)).strength ∧
      ((⟨"A", "related_to", mkRat 9 10, errorFallbackReason⟩ : Assessment)).strength ≤ 1) :=
  ⟨by decide,
    save_strength_bounds_C4 "B" [⟨"A", none, "alpha", [], mkRat 9 10⟩]
      (Except.error "boom") (fun _ => true)
      ⟨"A", "related_to", mkRat 9 10, errorFallbackReason⟩ (by decide)⟩

/-- C8: when similarity search returns no candidate other than possibly
the new note itself, the save operation creates zero edges and returns
a null warning, for any classifier outcome and any insert behaviour. -/
theorem save_no_candidates_C8 (noteId : String)
    (similar : List SimilarNote) (cls : Except String (List RawEntry))
    (insertOk : ℕ → Bool) (hall : ∀ c ∈ similar, c.id = noteId) :
    (saveConnect noteId similar cls insertOk).connections = [] ∧
    (saveConnect noteId similar cls insertOk).assessments = [] ∧
    (saveConnect noteId similar cls insertOk).warning = none := by
  have hfil : similar.filter (fun c => c.id ≠ noteId) = [] := by
    rw [List.filter_eq_nil_iff]
    intro c hc
    simp [hall c hc]
  have houtcome : saveConnect noteId similar cls insertOk =
      ⟨[], [], 0, none⟩ := by
    simp only [saveConnect, hfil, List.isEmpty_nil, if_true]
  rw [houtcome]
  exact ⟨rfl, rfl, rfl⟩

/-- Concrete witness for C8: the search returned only the new note
itself. -/
theorem save_no_candidates_C8_witness :
    (∀ c ∈ [(⟨"B", none, "alpha", [], 1⟩ : SimilarNote)], c.id = "B") ∧
    (saveConnect "B" [⟨"B", none, "alpha", [], 1⟩]
        (Except.error "boom") (fun _ => true)).connections = [] :=
  ⟨by decide,
    (save_no_candidates_C8 "B" [⟨"B", none, "alpha", [], 1⟩]
      (Except.error "boom") (fun _ => true) (by decide)).1⟩

/-! ## Claim theorems for the SQL traversal and extraction queries -/

instance (e : Edge) (b c : String) : Decidable (connects e b c) := by
  unfold connects; infer_instance

theorem mem_get_connections {db : DB} {root : String} {s : ℚ} {r : GRow} :
    r ∈ get_connections db root s ↔
      r ∈ outgoingRows db root s ∨ r ∈ incomingRows db root s := by
  unfold get_connections
  rw [List.mem_dedup, List.mem_append]

theorem mem_outgoingRows {db : DB} {root : String} {s : ℚ} {r : GRow} :
    r ∈ outgoingRows db root s ↔
      ∃ e ∈ db.edges, e.source = root ∧ s ≤ e.strength ∧
        e.target ∈ db.noteIds ∧ r = ⟨e.target, 1, e.label, e.strength⟩ := by
  unfold outgoingRows
  rw [List.mem_filterMap]
  constructor
  · rintro ⟨e, he, hsome⟩
    by_cases hc : e.source = root ∧ s ≤ e.strength ∧ e.target ∈ db.noteIds
    · rw [if_pos hc] at hsome
      exact ⟨e, he, hc.1, hc.2.1, hc.2.2, (Option.some_inj.mp hsome).symm⟩
    · rw [if_neg hc] at hsome; cases hsome
  · rintro ⟨e, he, h1, h2, h3, rfl⟩
    exact ⟨e, he, by rw [if_pos ⟨h1, h2, h3⟩]⟩

theorem mem_incomingRows {db : DB} {root : String} {s : ℚ} {r : GRow} :
    r ∈ incomingRows db root s ↔
      ∃ e ∈ db.edges, e.target = root ∧ s ≤ e.strength ∧
        e.source ∈ db.noteIds ∧ r = ⟨e.source, 1, e.label, e.strength⟩ := by
  unfold incomingRows
  rw [List.mem_filterMap]
  constructor
  · rintro ⟨e, he, hsome⟩
    by_cases hc : e.target = root ∧ s ≤ e.strength ∧ e.source ∈ db.noteIds
    · rw [if_pos hc] at hsome
      exact ⟨e, he, hc.1, hc.2.1, hc.2.2, (Option.some_inj.mp hsome).symm⟩
    · rw [if_neg hc] at hsome; cases hsome
  · rintro ⟨e, he, h1, h2, h3, rfl⟩
    exact ⟨e, he, by rw [if_pos ⟨h1, h2, h3⟩]⟩

/-- Shared concrete note for instantiating the traversal theorems. -/
def sampleNote (i : String) : Note := ⟨i, none, "content", [], "manual", none, 0⟩

/-- Shared concrete edge for instantiating the traversal theorems. -/
def sampleEdge (a b l : String) (v : ℚ) : Edge := ⟨a, b, l, v, none, 0⟩

/-- The spec's depth-1 scenario store: root with edges to X (strength
0.6) and Y (strength 0.2). -/
def dbDirect : DB :=
  ⟨[sampleNote "root", sampleNote "X", sampleNote "Y"],
   [sampleEdge "root" "X" "related_to" (mkRat 6 10),
    sampleEdge "root" "Y" "related_to" (mkRat 2 10)]⟩

/-- C5: on a store without self-loop edges, every result of
`get_connections(root, s)` is a note other than the root, reached by a
single stored edge having the root as an endpoint, whose strength is at
least `s` and whose label/strength the row reports; and in the concrete
scenario (edges root–X at 0.6 and root–Y at 0.2, threshold 0.3) the
result is exactly X's row. -/
theorem direct_connections_C5 :
    (∀ (db : DB) (root : String) (s : ℚ), db.NoSelfLoops →
      ∀ r ∈ get_connections db root s,
        r.id ≠ root ∧ r.depth = 1 ∧ s ≤ r.strength ∧
        ∃ e ∈ db.edges, e.label = r.label ∧ e.strength = r.strength ∧
          connects e root r.id) ∧
    get_connections dbDirect "root" (mkRat 3 10) =
      [⟨"X", 1, "related_to", mkRat 6 10⟩] := by
  constructor
  · intro db root s hnsl r hr
    rcases mem_get_connections.mp hr with h | h
    · rcases mem_outgoingRows.mp h with ⟨e, he, hsrc, hstr, _, rfl⟩
      refine ⟨?_, rfl, hstr, e, he, rfl, rfl, Or.inl ⟨hsrc, rfl⟩⟩
      intro hid
      exact hnsl e he
        (by rw [hsrc]; exact (show e.target = root from hid).symm)
    · rcases mem_incomingRows.mp h with ⟨e, he, htgt, hstr, _, rfl⟩
      refine ⟨?_, rfl, hstr, e, he, rfl, rfl, Or.inr ⟨rfl, htgt⟩⟩
      intro hid
      exact hnsl e he
        (by rw [htgt]; exact (show e.source = root from hid))
  · decide

/-- Concrete witness for C5: the scenario store has no self-loops and
X's row indeed reports a qualifying edge. -/
theorem direct_connections_C5_witness :
    dbDirect.NoSelfLoops ∧
    ((⟨"X", 1, "related_to", mkRat 6 10⟩ : GRow) ∈
        get_connections dbDirect "root" (mkRat 3 10)) ∧
    (⟨"X", 1, "related_to", mkRat 6 10⟩ : GRow).id ≠ "root" :=
  ⟨by decide, by decide,
    (direct_connections_C5.1 dbDirect "root" (mkRat 3 10) (by decide)
      ⟨"X", 1, "related_to", mkRat 6 10⟩ (by decide)).1⟩

/-- A store in which root and X are joined by two distinct edges (one
in each direction) bearing the same label and strength. -/
def dbDup : DB :=
  ⟨[sampleNote "root", sampleNote "X"],
   [sampleEdge "root" "X" "related_to" (mkRat 6 10),
    sampleEdge "X" "root" "related_to" (mkRat 6 10)]⟩

/-- C6 fails as stated: in `dbDup` the note X is joined to the root by
two distinct edges of strength 0.6 ≥ 0.3, yet `get_connections` returns
a single record for X — the SQL `UNION` collapses the two identical
result rows. -/
theorem direct_no_dedup_C6_counterexample :
    sampleEdge "root" "X" "related_to" (mkRat 6 10) ∈ dbDup.edges ∧
    sampleEdge "X" "root" "related_to" (mkRat 6 10) ∈ dbDup.edges ∧
    sampleEdge "root" "X" "related_to" (mkRat 6 10) ≠
      sampleEdge "X" "root" "related_to" (mkRat 6 10) ∧
    connects (sampleEdge "root" "X" "related_to" (mkRat 6 10)) "root" "X" ∧
    connects (sampleEdge "X" "root" "related_to" (mkRat 6 10)) "root" "X" ∧
    mkRat 3 10 ≤ mkRat 6 10 ∧
    ((get_connections dbDup "root" (mkRat 3 10)).countP
      (fun r => r.id = "X")) = 1 := by
  decide

theorem two_le_length_filter {α : Type} [DecidableEq α] {l : List α}
    {p : α → Bool} {a b : α} (ha : a ∈ l) (hb : b ∈ l)
    (hab : a ≠ b) (hpa : p a = true) (hpb : p b = true) :
    2 ≤ (l.filter p).length := by
  have ha' : a ∈ l.filter p := List.mem_filter.mpr ⟨ha, hpa⟩
  have hb' : b ∈ l.filter p := List.mem_filter.mpr ⟨hb, hpb⟩
  have hsub : ({a, b} : Finset α) ⊆ (l.filter p).toFinset := by
    intro x hx
    rcases Finset.mem_insert.mp hx with rfl | hx
    · exact List.mem_toFinset.mpr ha'
    · rw [Finset.mem_singleton] at hx
      subst hx
      exact List.mem_toFinset.mpr hb'
  calc 2 = ({a, b} : Finset α).card := (Finset.card_pair hab).symm
    _ ≤ (l.filter p).toFinset.card := Finset.card_le_card hsub
    _ ≤ (l.filter p).length := (l.filter p).toFinset_card_le

/-- C6 (amended): depth-1 results are kept once per *distinct result
record*: the result list never repeats a record, its records are
exactly those the outgoing and incoming subqueries produce, and a note
joined to the root by two qualifying stored edges bearing different
labels yields two records for that note (no deduplication by note id);
only edges producing byte-identical records — an outgoing and an
incoming edge with equal label and strength — are collapsed by the SQL
`UNION`. -/
theorem direct_no_dedup_C6 (db : DB) (root : String) (s : ℚ) :
    (get_connections db root s).Nodup ∧
    (∀ r, r ∈ get_connections db root s ↔
      r ∈ outgoingRows db root s ∨ r ∈ incomingRows db root s) ∧
    (∀ (e1 e2 : Edge) (X : String), e1 ∈ db.edges → e2 ∈ db.edges →
      connects e1 root X → connects e2 root X →
      s ≤ e1.strength → s ≤ e2.strength → X ∈ db.noteIds →
      e1.label ≠ e2.label →
      2 ≤ ((get_connections db root s).filter
        (fun r => r.id = X)).length) := by
  refine ⟨List.nodup_dedup _, fun r => mem_get_connections, ?_⟩
  intro e1 e2 X he1 he2 hc1 hc2 hs1 hs2 hX hlab
  have hrow : ∀ e : Edge, e ∈ db.edges → connects e root X →
      s ≤ e.strength →
      (⟨X, 1, e.label, e.strength⟩ : GRow) ∈ get_connections db root s := by
    intro e he hc hs
    rcases hc with ⟨h1, h2⟩ | ⟨h1, h2⟩
    · exact mem_get_connections.mpr
        (Or.inl (mem_outgoingRows.mpr ⟨e, he, h1, hs, h2 ▸ hX, by rw [h2]⟩))
    · exact mem_get_connections.mpr
        (Or.inr (mem_incomingRows.mpr ⟨e, he, h2, hs, h1 ▸ hX, by rw [h1]⟩))
  exact two_le_length_filter
    (hrow e1 he1 hc1 hs1) (hrow e2 he2 hc2 hs2)
    (fun h => hlab (congrArg GRow.label h))
    (decide_eq_true rfl) (decide_eq_true rfl)

/-- A store in which root and X are joined by two distinct edges with
different labels. -/
def dbTwoLabels : DB :=
  ⟨[sampleNote "root", sampleNote "X"],
   [sampleEdge "root" "X" "supports" (mkRat 6 10),
    sampleEdge "X" "root" "related_to" (mkRat 6 10)]⟩

/-- Concrete witness for the amended C6: with different labels both
records are present. -/
theorem direct_no_dedup_C6_witness :
    (sampleEdge "root" "X" "supports" (mkRat 6 10) ∈ dbTwoLabels.edges ∧
      connects (sampleEdge "root" "X" "supports" (mkRat 6 10)) "root" "X" ∧
      "X" ∈ dbTwoLabels.noteIds) ∧
    2 ≤ ((get_connections dbTwoLabels "root" (mkRat 3 10)).filter
      (fun r => r.id = "X")).length :=
  ⟨⟨by decide, by decide, by decide⟩,
    (direct_no_dedup_C6 dbTwoLabels "root" (mkRat 3 10)).2.2
      (sampleEdge "root" "X" "supports" (mkRat 6 10))
      (sampleEdge "X" "root" "related_to" (mkRat 6 10)) "X"
      (by decide) (by decide) (by decide) (by decide) (by decide)
      (by decide) (by decide) (by decide)⟩

/-- C7: every edge returned by the interest-graph extractor has both
endpoints inside the returned node set and strength at least the
threshold; an empty node selection yields empty nodes and edges, not an
error. -/
theorem interest_graph_C7 (db : DB) (limit : ℕ) (s : ℚ)
    (tag : Option String) :
    (∀ e ∈ (getInterestGraph db limit s tag).2,
      e.source ∈ (getInterestGraph db limit s tag).1.map Note.id ∧
      e.target ∈ (getInterestGraph db limit s tag).1.map Note.id ∧
      s ≤ e.strength) ∧
    ((getInterestGraph db limit s tag).1 = [] →
      (getInterestGraph db limit s tag).2 = []) := by
  unfold getInterestGraph
  set base : List Note :=
    (match tag with
      | some t => db.notes.filter (fun (n : Note) => n.tags.contains t)
      | none => db.notes) with hbase
  set nodes : List Note :=
    (base.insertionSort (fun (a b : Note) => b.created_at ≤ a.created_at)).take
      limit with hnodes
  by_cases hemp : nodes.isEmpty
  · rw [if_pos hemp]
    exact ⟨fun e he => absurd he (List.not_mem_nil e), fun _ => rfl⟩
  · simp only [Bool.not_eq_true] at hemp
    have hne : ¬ (nodes.isEmpty = true) := by
      rw [hemp]
      exact Bool.false_ne_true
    rw [if_neg hne]
    constructor
    · intro e he
      have h := List.mem_filter.mp he
      have h' := of_decide_eq_true h.2
      exact ⟨h'.1, h'.2.1, h'.2.2⟩
    · intro hn
      exact absurd (congrArg List.isEmpty hn)
        (by rw [hemp]; simp)

/-- Concrete witness for C7: the empty store yields empty nodes and
edges. -/
theorem interest_graph_C7_witness :
    (getInterestGraph ⟨[], []⟩ 5 0 none).1 = [] ∧
    (getInterestGraph ⟨[], []⟩ 5 0 none).2 = [] :=
  ⟨by decide, (interest_graph_C7 ⟨[], []⟩ 5 0 none).2 (by decide)⟩

/-- Every row of `match_notes` has similarity strictly above the
threshold. -/
theorem mem_match_notes_similarity {dist : List ℚ → List ℚ → ℚ}
    {db : DB} {q : List ℚ} {thr : ℚ} {cnt : ℕ}
    {tags : Option (List String)} {r : MatchRow}
    (h : r ∈ match_notes dist db q thr cnt tags) : thr < r.similarity := by
  unfold match_notes at h
  rcases List.mem_map.mp (List.mem_of_mem_take h) with ⟨pr, hpr, rfl⟩
  have hpr' := (List.perm_insertionSort
    (fun (a b : ℚ × MatchRow) => a.1 ≤ b.1) _).mem_iff.mp hpr
  rcases List.mem_filterMap.mp hpr' with ⟨n, _, hsome⟩
  rcases hemb : n.embedding with _ | emb
  · rw [hemb] at hsome; cases hsome
  · rw [hemb] at hsome
    dsimp only at hsome
    split at hsome
    next hcond =>
      rcases Option.some_inj.mp hsome with rfl
      exact hcond.1
    next => cases hsome

/-- C10: the similarity search applies a fixed hidden floor of 0.3 on
both of its code paths — the canonical `match_notes` RPC path and the
in-process stale-schema fallback path — so every returned candidate's
similarity strictly exceeds 0.3, for every query, limit and tag
filter. -/
theorem search_floor_C10 :
    (∀ (dist : List ℚ → List ℚ → ℚ) (db : DB) (q : List ℚ) (limit : ℕ)
        (tags : Option (List String)) (r : MatchRow),
      r ∈ searchByEmbedding dist db q limit tags →
        mkRat 3 10 < r.similarity) ∧
    (∀ (cosine : List ℚ → List ℚ → ℚ) (db : DB) (q : List ℚ) (limit : ℕ)
        (tags : Option (List String)) (r : MatchRow),
      r ∈ searchFallback cosine db q limit tags →
        mkRat 3 10 < r.similarity) := by
  constructor
  · intro dist db q limit tags r h
    exact mem_match_notes_similarity h
  · intro cosine db q limit tags r h
    unfold searchFallback at h
    have h1 := (List.perm_insertionSort
      (fun (a b : MatchRow) => b.similarity ≤ a.similarity) _).mem_iff.mp
      (List.mem_of_mem_take h)
    have h2 := (List.mem_filter.mp h1).1
    exact of_decide_eq_true (List.mem_filter.mp h2).2

/-- Concrete witness for C10: a note at distance 0 from the query is
returned with similarity above the floor. -/
theorem search_floor_C10_witness :
    ((⟨"n", none, "content", [], 1⟩ : MatchRow) ∈
      searchByEmbedding (fun _ _ => 0)
        ⟨[{ sampleNote "n" with embedding := some [1] }], []⟩ [1] 5 none) ∧
    mkRat 3 10 < (⟨"n", none, "content", [], 1⟩ : MatchRow).similarity := by
  have hmem : (⟨"n", none, "content", [], 1⟩ : MatchRow) ∈
      searchByEmbedding (fun _ _ => 0)
        ⟨[{ sampleNote "n" with embedding := some [1] }], []⟩ [1] 5 none := by
    simp [searchByEmbedding, match_notes, sampleNote, List.insertionSort,
      Rat.mkRat_eq_div, show (3:ℚ)/10 < 1 from by norm_num]
  exact ⟨hmem, search_floor_C10.1 (fun _ _ => 0)
    ⟨[{ sampleNote "n" with embedding := some [1] }], []⟩ [1] 5 none
    ⟨"n", none, "content", [], 1⟩ hmem⟩

/-! ## Deep-traversal correctness (claim C2) -/

theorem Walk_zero {db : DB} {s : ℚ} {x y : String}
    (h : Walk db s x y 0) : x = y := by
  cases h
  rfl

theorem AWalk_zero {db : DB} {s : ℚ} {root x : String}
    (h : AWalk db s root x 0) : x = root := by
  cases h
  rfl

theorem AWalk_to_Walk {db : DB} {s : ℚ} {root x : String} {n : ℕ}
    (h : AWalk db s root x n) : Walk db s root x n := by
  induction h with
  | base => exact Walk.base root
  | step _ he hs hc _ ih => exact Walk.step ih he hs hc

theorem Walk_to_AWalk {db : DB} {s : ℚ} {root x : String} {k : ℕ}
    (h : Walk db s root x k) : ∃ j, j ≤ k ∧ AWalk db s root x j := by
  induction h with
  | base => exact ⟨0, le_refl 0, AWalk.base⟩
  | @step b c n e _ he hs hc ih =>
      by_cases hcr : c = root
      · subst hcr
        exact ⟨0, Nat.zero_le _, AWalk.base⟩
      · obtain ⟨j, hj, ha⟩ := ih
        exact ⟨j + 1, Nat.succ_le_succ hj, AWalk.step ha he hs hc hcr⟩

theorem mem_stepRow {db : DB} {root : String} {s : ℚ} {d : ℕ}
    {g r : GRow} :
    r ∈ stepRow db root s d g ↔
      g.depth < d ∧ ∃ e ∈ db.edges,
        (e.source = g.id ∨ e.target = g.id) ∧ s ≤ e.strength ∧
        otherEnd e g.id ∈ db.noteIds ∧ otherEnd e g.id ≠ root ∧
        r = ⟨otherEnd e g.id, g.depth + 1, e.label, e.strength⟩ := by
  unfold stepRow
  by_cases hlt : g.depth < d
  · rw [if_pos hlt]
    rw [List.mem_filterMap]
    constructor
    · rintro ⟨e, he, hsome⟩
      by_cases h1 : (e.source = g.id ∨ e.target = g.id) ∧ s ≤ e.strength
      · rw [if_pos h1] at hsome
        by_cases h2 : otherEnd e g.id ∈ db.noteIds ∧ otherEnd e g.id ≠ root
        · rw [if_pos h2] at hsome
          exact ⟨hlt, e, he, h1.1, h1.2, h2.1, h2.2,
            (Option.some_inj.mp hsome).symm⟩
        · rw [if_neg h2] at hsome; cases hsome
      · rw [if_neg h1] at hsome; cases hsome
    · rintro ⟨_, e, he, ha, hb, hc, hd', rfl⟩
      exact ⟨e, he, by rw [if_pos ⟨ha, hb⟩, if_pos ⟨hc, hd'⟩]⟩
  · rw [if_neg hlt]
    constructor
    · intro h; cases h
    · rintro ⟨hlt', _⟩; exact absurd hlt' hlt

theorem mem_graphRows {db : DB} {root : String} {s : ℚ} {d : ℕ} {r : GRow} :
    r ∈ graphRows db root s d ↔
      ∃ k, k < d ∧ r ∈ levelRows db root s d k := by
  unfold graphRows
  rw [List.mem_flatMap]
  constructor
  · rintro ⟨k, hk, hr⟩
    exact ⟨k, List.mem_range.mp hk, hr⟩
  · rintro ⟨k, hk, hr⟩
    exact ⟨k, List.mem_range.mpr hk, hr⟩

/-- Soundness of the CTE levels: every accumulated row at level `k` has
depth `k + 1`, names a non-root note, carries a strength at or above
the threshold, and records the label/strength of the final edge of a
root-avoiding walk of length `k + 1` from the root to that note. -/
theorem levelRows_to_walk {db : DB} {root : String} {s : ℚ} {d : ℕ}
    (hnsl : db.NoSelfLoops) :
    ∀ (k : ℕ) (r : GRow), r ∈ levelRows db root s d k →
      r.depth = k + 1 ∧ r.id ≠ root ∧ s ≤ r.strength ∧
      ∃ e ∈ db.edges, e.label = r.label ∧ e.strength = r.strength ∧
        ∃ b, AWalk db s root b k ∧ connects e b r.id := by
  intro k
  induction k with
  | zero =>
      intro r hr
      rcases List.mem_append.mp hr with h | h
      · rcases mem_outgoingRows.mp h with ⟨e, he, hsrc, hstr, _, rfl⟩
        refine ⟨rfl, ?_, hstr, e, he, rfl, rfl, root, AWalk.base,
          Or.inl ⟨hsrc, rfl⟩⟩
        intro hid
        exact hnsl e he
          (by rw [hsrc]; exact (show e.target = root from hid).symm)
      · rcases mem_incomingRows.mp h with ⟨e, he, htgt, hstr, _, rfl⟩
        refine ⟨rfl, ?_, hstr, e, he, rfl, rfl, root, AWalk.base,
          Or.inr ⟨rfl, htgt⟩⟩
        intro hid
        exact hnsl e he
          (by rw [htgt]; exact (show e.source = root from hid))
  | succ k ih =>
      intro r hr
      rcases List.mem_flatMap.mp hr with ⟨g, hg, hstep⟩
      obtain ⟨hdep, hgroot, hgstr, e', he', hlab', hstr', b', hb', hconn'⟩ :=
        ih g hg
      obtain ⟨_, e, he, hor, hstr, _, hnroot, rfl⟩ := mem_stepRow.mp hstep
      have hAg : AWalk db s root g.id (k + 1) := by
        have := AWalk.step hb' he' (by rw [hstr']; exact hgstr) hconn' hgroot
        exact this
      refine ⟨by rw [hdep], hnroot, hstr, e, he, rfl, rfl, g.id, hAg, ?_⟩
      unfold otherEnd
      by_cases hsg : e.source = g.id
      · rw [if_pos hsg]
        exact Or.inl ⟨hsg, rfl⟩
      · rw [if_neg hsg]
        rcases hor with h | h
        · exact absurd h hsg
        · exact Or.inr ⟨rfl, h⟩

/-- Completeness of the CTE levels: a root-avoiding walk of length
`k + 1 ≤ d` ending at `x` yields an accumulated row for `x` at level
`k` (on a store satisfying the foreign-key invariant). -/
theorem walk_to_levelRows {db : DB} {root : String} {s : ℚ} {d : ℕ}
    (hwf : db.WF) :
    ∀ (k : ℕ) (x : String), AWalk db s root x (k + 1) → k + 1 ≤ d →
      ∃ r ∈ levelRows db root s d k, r.id = x ∧ r.depth = k + 1 := by
  intro k
  induction k with
  | zero =>
      intro x hx _
      rcases hx with _ | @⟨b, _, _, e, hb, he, hstr, hconn, hxroot⟩
      have hbroot : b = root := AWalk_zero hb
      subst hbroot
      rcases hconn with ⟨h1, h2⟩ | ⟨h1, h2⟩
      · refine ⟨⟨x, 1, e.label, e.strength⟩, ?_, rfl, rfl⟩
        exact List.mem_append.mpr (Or.inl (mem_outgoingRows.mpr
          ⟨e, he, h1, hstr, h2 ▸ (hwf e he).2, by rw [h2]⟩))
      · refine ⟨⟨x, 1, e.label, e.strength⟩, ?_, rfl, rfl⟩
        exact List.mem_append.mpr (Or.inr (mem_incomingRows.mpr
          ⟨e, he, h2, hstr, h1 ▸ (hwf e he).1, by rw [h1]⟩))
  | succ k ih =>
      intro x hx hd
      rcases hx with _ | @⟨b, _, _, e, hb, he, hstr, hconn, hxroot⟩
      obtain ⟨g, hg, hgid, hgdep⟩ := ih b hb (by omega)
      have hother : otherEnd e g.id = x := by
        unfold otherEnd
        rcases hconn with ⟨h1, h2⟩ | ⟨h1, h2⟩
        · rw [if_pos (by rw [hgid]; exact h1)]
          exact h2
        · by_cases hsg : e.source = g.id
          · rw [if_pos hsg]
            rw [hgid] at hsg
            rw [h2]
            rw [h1] at hsg
            exact hsg.symm
          · rw [if_neg hsg]
            exact h1
      have hxnotes : x ∈ db.noteIds := by
        rcases hconn with ⟨_, h2⟩ | ⟨h1, _⟩
        · exact h2 ▸ (hwf e he).2
        · exact h1 ▸ (hwf e he).1
      refine ⟨⟨x, g.depth + 1, e.label, e.strength⟩, ?_, rfl, by rw [hgdep]⟩
      show _ ∈ (levelRows db root s d k).flatMap (stepRow db root s d)
      refine List.mem_flatMap.mpr ⟨g, hg, mem_stepRow.mpr
        ⟨by omega, e, he, ?_, hstr, by rw [hother]; exact hxnotes,
          by rw [hother]; exact hxroot, by rw [hother]⟩⟩
      rcases hconn with ⟨h1, _⟩ | ⟨_, h2⟩
      · exact Or.inl (by rw [hgid]; exact h1)
      · exact Or.inr (by rw [hgid]; exact h2)

theorem deep_pick_mem {db : DB} {root : String} {d : ℕ} {s : ℚ} {r : GRow}
    (h : r ∈ get_connections_deep db root d s) :
    r ∈ graphRows db root s d ∧
      ∀ r' ∈ graphRows db root s d, r'.id = r.id → r.depth ≤ r'.depth := by
  unfold get_connections_deep at h
  rcases List.mem_filterMap.mp h with ⟨i, _, hpick⟩
  have hmem := List.argmin_mem hpick
  have hfil := List.mem_filter.mp hmem
  have hid : r.id = i := of_decide_eq_true hfil.2
  refine ⟨hfil.1, ?_⟩
  intro r' hr' hid'
  have hr'' : r' ∈ (graphRows db root s d).filter (fun x => x.id = i) :=
    List.mem_filter.mpr ⟨hr', decide_eq_true (by rw [hid']; exact hid)⟩
  exact List.le_of_mem_argmin hr'' hpick

theorem nodup_map_filterMap_pick {l : List String}
    {f : String → Option GRow} (hl : l.Nodup)
    (hf : ∀ i r, f i = some r → r.id = i) :
    ((l.filterMap f).map GRow.id).Nodup := by
  induction l with
  | nil => simp
  | cons i t ih =>
      rcases List.nodup_cons.mp hl with ⟨hit, ht⟩
      cases hf0 : f i with
      | none =>
          simp only [List.filterMap_cons, hf0]
          exact ih ht
      | some r =>
          simp only [List.filterMap_cons, hf0, List.map_cons]
          refine List.nodup_cons.mpr ⟨?_, ih ht⟩
          intro hmem
          rcases List.mem_map.mp hmem with ⟨r', hr', hid'⟩
          rcases List.mem_filterMap.mp hr' with ⟨i', hi', hfi'⟩
          have : i' = i := by
            rw [← hf i' r' hfi', hid', hf i r hf0]
          exact hit (this ▸ hi')

theorem deep_ids_nodup (db : DB) (root : String) (d : ℕ) (s : ℚ) :
    ((get_connections_deep db root d s).map GRow.id).Nodup := by
  unfold get_connections_deep
  apply nodup_map_filterMap_pick (List.nodup_dedup _)
  intro i r hsome
  exact of_decide_eq_true
    (List.mem_filter.mp (List.argmin_mem hsome)).2

/-- C2: against a store satisfying the foreign-key invariant and free of
self-loop edges, every row of `get_connections_deep(root, d, s)` with
`d ≥ 2` names a note distinct from the root, occurs for a note id that
appears only once in the result, and reports the minimum depth (at most
`d`) at which that note is reachable from the root through stored edges
of strength at least `s` followed in either direction, together with
the label and strength of the final edge of a walk of that shortest
length. -/
theorem deep_connections_C2 (db : DB) (root : String) (d : ℕ) (s : ℚ)
    (hwf : db.WF) (hnsl : db.NoSelfLoops) (_hd : 2 ≤ d) :
    ∀ r ∈ get_connections_deep db root d s,
      r.id ≠ root ∧
      (∀ r' ∈ get_connections_deep db root d s, r'.id = r.id → r' = r) ∧
      1 ≤ r.depth ∧ r.depth ≤ d ∧
      Walk db s root r.id r.depth ∧
      (∀ k, Walk db s root r.id k → r.depth ≤ k) ∧
      s ≤ r.strength ∧
      (∃ e ∈ db.edges, e.label = r.label ∧ e.strength = r.strength ∧
        ∃ b, Walk db s root b (r.depth - 1) ∧ connects e b r.id) := by
  intro r hr
  obtain ⟨hgr, hmin⟩ := deep_pick_mem hr
  obtain ⟨k, hk, hlev⟩ := mem_graphRows.mp hgr
  obtain ⟨hdep, hnroot, hstr, e, he, hlab, hestr, b, hb, hconn⟩ :=
    levelRows_to_walk hnsl k r hlev
  have hdle : r.depth ≤ d := by omega
  have hAr : AWalk db s root r.id (k + 1) :=
    AWalk.step hb he (by rw [hestr]; exact hstr) hconn hnroot
  have hwalkr : Walk db s root r.id r.depth := by
    rw [hdep]
    exact AWalk_to_Walk hAr
  refine ⟨hnroot, ?_, by omega, hdle, hwalkr, ?_, hstr, e, he, hlab, hestr,
    b, ?_, hconn⟩
  · intro r' hr' hid'
    exact List.inj_on_of_nodup_map (deep_ids_nodup db root d s) hr' hr hid'
  · intro k' hwk'
    obtain ⟨j, hj, haj⟩ := Walk_to_AWalk hwk'
    have hj1 : 1 ≤ j := by
      rcases Nat.eq_zero_or_pos j with hj0 | hj0
      · exact absurd (AWalk_zero (hj0 ▸ haj)) hnroot
      · exact hj0
    by_cases hjd : j ≤ d
    · obtain ⟨r', hr', hid', hdep'⟩ :=
        walk_to_levelRows (d := d) hwf (j - 1) r.id
          (by rwa [Nat.sub_add_cancel hj1]) (by omega)
      have hr'' : r' ∈ graphRows db root s d :=
        mem_graphRows.mpr ⟨j - 1, by omega, hr'⟩
      have hle : r.depth ≤ r'.depth := hmin r' hr'' hid'
      rw [hdep'] at hle
      omega
    · omega
  · rw [hdep]
    simpa using AWalk_to_Walk hb

/-- The spec's depth-2 scenario store: root→P→Q plus a direct root→Q
edge, all of strength 0.5. -/
def dbDeep : DB :=
  ⟨[sampleNote "root", sampleNote "P", sampleNote "Q"],
   [sampleEdge "root" "P" "related_to" (mkRat 1 2),
    sampleEdge "P" "Q" "related_to" (mkRat 1 2),
    sampleEdge "root" "Q" "supports" (mkRat 1 2)]⟩

/-- Concrete witness for C2: in the scenario store Q is reachable at
depths 1 and 2 but is reported once, at depth 1, and the reported row
names a note other than the root. -/
theorem deep_connections_C2_witness :
    dbDeep.WF ∧ dbDeep.NoSelfLoops ∧ 2 ≤ 2 ∧
    ((⟨"Q", 1, "supports", mkRat 1 2⟩ : GRow) ∈
      get_connections_deep dbDeep "root" 2 (mkRat 3 10)) ∧
    (⟨"Q", 1, "supports", mkRat 1 2⟩ : GRow).id ≠ "root" ∧
    get_connections_deep dbDeep "root" 2 (mkRat 3 10) =
      [⟨"Q", 1, "supports", mkRat 1 2⟩, ⟨"P", 1, "related_to", mkRat 1 2⟩] :=
  ⟨by decide, by decide, by decide, by decide,
    (deep_connections_C2 dbDeep "root" 2 (mkRat 3 10) (by decide) (by decide)
      (by decide) ⟨"Q", 1, "supports", mkRat 1 2⟩ (by decide)).1,
    by decide⟩

end Cortex
